import Mathlib

/-!
Verification development for the `anticipate` repository.

The PTY session (`src/core/src/session/session.rs`) is embedded as a pure
state machine: the OS stream is a list of pending bytes plus a closed flag,
the retention buffer is an explicit list, and the non-blocking read loop of
`read_available` becomes a pure state transformer.  Wall-clock time inside
the expect loops is abstracted as a function from the iteration count to
elapsed milliseconds, and the unbounded retry loops are run on explicit
fuel (`none` means the loop had not returned within the given fuel).

The `Needle` and `Captures` implementations (`needle.rs`, `captures.rs`)
are not present under `src/`; the definitions that stand in for them are
modelled from the spec and marked as such in their doc comments.
-/

namespace Anticipate

/-- Bytes are modelled as natural numbers; buffers as lists of bytes. -/
abbrev Byte := Nat

/-- State of a `Session` (src/core/src/session/session.rs).  `retention` is
the internal buffer of bytes read from the OS stream but not yet consumed
(`BufferedReader.buffer`); `pending` are bytes the child has produced but the
session has not yet read; `closed` records whether the OS stream reports EOF
once `pending` is exhausted. -/
structure SessionSt where
  retention : List Byte
  pending : List Byte
  closed : Bool
  expectTimeout : Option Nat
  expectLazy : Bool
deriving DecidableEq, Repr

/-- A needle's pure `check(buf, eof)` capability: a list of match ranges. -/
abbrev NeedleFn := List Byte → Bool → List (Nat × Nat)

/-- Errors surfaced by session operations (src/core/src/error.rs). -/
inductive SErr where
  | eof
  | expectTimeout (dur : Nat) (desc : String)
deriving DecidableEq, Repr

/-- Result of a successful expect (captures.rs is not under src/). -/
structure Captures where
  buf : List Byte
  found : List (Nat × Nat)
deriving DecidableEq, Repr

/-- Modelled from the spec: `right_most_index(matches)` is the maximum `end`
across all matches (captures.rs is missing from src/; only callers in
session.rs are present). -/
def Captures.rightMostIndex (ms : List (Nat × Nat)) : Nat :=
  ms.foldl (fun a m => max a m.2) 0

/-- Modelled from the spec: `get(i)` returns the i-th match bytes
(captures.rs is missing from src/). -/
def Captures.get (c : Captures) (i : Nat) : Option (List Byte) :=
  (c.found[i]?).map (fun m => (c.buf.drop m.1).take (m.2 - m.1))

/-- One pass of `TryStream::read_available`: repeatedly reads in non-blocking
mode until the stream would block (returns `false`) or reports EOF (returns
`true`), keeping every byte read in the retention buffer. -/
def readAvailable (s : SessionSt) : Bool × SessionSt :=
  (s.closed, { s with retention := s.retention ++ s.pending, pending := [] })

/-- The single non-blocking read of `TryStream::read_available_once` with a
one-byte scratch buffer, as used by the lazy expect.  Returns `some 0` on
EOF, `some 1` when a byte was read, `none` when the read would block. -/
def readAvailableOnce (s : SessionSt) : Option Nat × SessionSt :=
  match s.pending with
  | b :: rest => (some 1, { s with retention := s.retention ++ [b], pending := rest })
  | [] => if s.closed then (some 0, s) else (none, s)

/-- The `ControlledReader::consume_available` drain of the retention prefix. -/
def consumeAvailable (n : Nat) (s : SessionSt) : SessionSt :=
  { s with retention := s.retention.drop n }

/-- The eager expect loop `Session::expect_gready`.  `clock i` is the
wall-clock time elapsed when iteration `i` reaches its timeout test; `fuel`
bounds the number of iterations the model is willing to run (`none` =
no result within the fuel). -/
def expectGready (check : NeedleFn) (desc : String) (clock : Nat → Nat) :
    Nat → Nat → SessionSt → Option (Except SErr Captures × SessionSt)
  | 0, _, _ => none
  | fuel + 1, iter, s =>
    let eof := (readAvailable s).1
    let s1 := (readAvailable s).2
    let found := check s1.retention eof
    if found.isEmpty then
      if eof then some (.error .eof, s1)
      else
        match s.expectTimeout with
        | some t =>
          if clock iter > t then some (.error (.expectTimeout t desc), s1)
          else expectGready check desc clock fuel (iter + 1) s1
        | none => expectGready check desc clock fuel (iter + 1) s1
    else
      let e := Captures.rightMostIndex found
      some (.ok ⟨s1.retention.take e, found⟩, consumeAvailable e s1)

/-- The lazy expect loop `Session::expect_lazy`: the searchable prefix grows
by at most one byte per iteration (`cdl` is `checking_data_length`, `eofF`
the `eof` flag that is only refreshed when the prefix has caught up with the
retention buffer). -/
def expectLazyRun (check : NeedleFn) (desc : String) (clock : Nat → Nat) :
    Nat → Nat → Nat → Bool → SessionSt → Option (Except SErr Captures × SessionSt)
  | 0, _, _, _, _ => none
  | fuel + 1, iter, cdl, eofF, s =>
    let eofF1 := if cdl = s.retention.length then (readAvailableOnce s).1 == some 0 else eofF
    let s1 := if cdl = s.retention.length then (readAvailableOnce s).2 else s
    let cdl1 := if cdl < s1.retention.length then cdl + 1 else cdl
    let data := s1.retention.take cdl1
    let found := check data eofF1
    if found.isEmpty then
      if eofF1 then some (.error .eof, s1)
      else
        match s.expectTimeout with
        | some t =>
          if clock iter > t then some (.error (.expectTimeout t desc), s1)
          else expectLazyRun check desc clock fuel (iter + 1) cdl1 eofF1 s1
        | none => expectLazyRun check desc clock fuel (iter + 1) cdl1 eofF1 s1
    else
      let e := Captures.rightMostIndex found
      some (.ok ⟨data.take e, found⟩, consumeAvailable e s1)

/-- `Session::expect`: dispatches on the `expect_lazy` flag. -/
def expect (check : NeedleFn) (desc : String) (clock : Nat → Nat) (fuel : Nat)
    (s : SessionSt) : Option (Except SErr Captures × SessionSt) :=
  if s.expectLazy then expectLazyRun check desc clock fuel 0 0 false s
  else expectGready check desc clock fuel 0 s

/-- `Session::check`: one `read_available` pass followed by one needle check;
non-blocking, returns empty captures when nothing matched and EOF was not
reached. -/
def checkOp (check : NeedleFn) (s : SessionSt) : Except SErr Captures × SessionSt :=
  let eof := (readAvailable s).1
  let s1 := (readAvailable s).2
  let found := check s1.retention eof
  if found.isEmpty then
    if eof then (.error .eof, s1) else (.ok ⟨[], []⟩, s1)
  else
    let e := Captures.rightMostIndex found
    (.ok ⟨s1.retention.take e, found⟩, consumeAvailable e s1)

/-- `Session::is_matched`: one `read_available` pass followed by one needle
check; consumes nothing. -/
def isMatched (check : NeedleFn) (s : SessionSt) : Except SErr Bool × SessionSt :=
  let eof := (readAvailable s).1
  let s1 := (readAvailable s).2
  let found := check s1.retention eof
  if found.isEmpty then
    (if eof then (.error .eof, s1) else (.ok false, s1))
  else (.ok true, s1)

/-- `Session::new` applied to a freshly spawned stream whose child will
produce `pending` and then reach EOF iff `closed`: the expect timeout
defaults to 5000 ms when `none` is supplied and the algorithm defaults to
gready. -/
def sessionNew (pending : List Byte) (closed : Bool) (timeout : Option Nat) :
    SessionSt :=
  { retention := []
    pending := pending
    closed := closed
    expectTimeout := some (timeout.getD 5000)
    expectLazy := false }

/-! The regex needle `\d+` (needle.rs is missing from src/). -/

/-- ASCII digit test for a byte. -/
def isDigitByte (b : Byte) : Bool := 48 ≤ b && b ≤ 57

/-- Scanner collecting the maximal runs of digit bytes; `cur` holds the start
of the run currently open, `i` the absolute position. -/
def digitRunsGo : Nat → Option Nat → List Byte → List (Nat × Nat)
  | i, cur, [] =>
    match cur with
    | some st => [(st, i)]
    | none => []
  | i, cur, b :: rest =>
    if isDigitByte b then digitRunsGo (i + 1) (some (cur.getD i)) rest
    else
      match cur with
      | some st => (st, i) :: digitRunsGo (i + 1) none rest
      | none => digitRunsGo (i + 1) none rest

/-- Modelled from the spec: the `Regex("\\d+")` needle reports every
non-overlapping match in the buffer, i.e. every maximal run of digit bytes
(needle.rs is missing from src/). -/
def digitRuns (l : List Byte) : List (Nat × Nat) := digitRunsGo 0 none l

/-- The `check` capability of the `\d+` regex needle: EOF does not produce
extra matches for a regex needle. -/
def digitCheck : NeedleFn := fun buf _ => digitRuns buf

/-- Session whose pending stream output is `"123"` with no further data. -/
def st123 (lazy : Bool) : SessionSt :=
  { retention := []
    pending := [49, 50, 51]
    closed := false
    expectTimeout := some 5000
    expectLazy := lazy }

/-- C1: with pending output `"123"`, `expect(Regex("\\d+"))` under the eager
strategy fills retention with all three bytes, matches the whole run and
returns `"123"` after consuming up to the rightmost match end; under the lazy
strategy the searchable prefix grows one byte per iteration, so the first
reported match is `"1"`. -/
theorem expect_regex_eager_vs_lazy :
    expect digitCheck "Regex(d+)" (fun _ => 0) 1 (st123 false) =
        some (.ok ⟨[49, 50, 51], [(0, 3)]⟩, ⟨[], [], false, some 5000, false⟩) ∧
    Captures.get ⟨[49, 50, 51], [(0, 3)]⟩ 0 = some [49, 50, 51] ∧
    expect digitCheck "Regex(d+)" (fun _ => 0) 1 (st123 true) =
        some (.ok ⟨[49], [(0, 1)]⟩, ⟨[], [50, 51], false, some 5000, true⟩) ∧
    Captures.get ⟨[49], [(0, 1)]⟩ 0 = some [49] :=
  ⟨rfl, rfl, rfl, rfl⟩

/-- C4: `Session::check` is a single non-blocking pass: it can never produce
an `ExpectTimeout` error; when the needle reports no match and EOF was not
reached it returns empty `Captures` and consumes nothing (the available bytes
are all still in retention, in order); and it returns `Eof` exactly when EOF
was reached with no match. -/
theorem check_single_pass (check : NeedleFn) (s : SessionSt) :
    (∀ t d, (checkOp check s).1 ≠ .error (.expectTimeout t d)) ∧
    (check (s.retention ++ s.pending) s.closed = [] → s.closed = false →
      checkOp check s =
        (.ok ⟨[], []⟩, ⟨s.retention ++ s.pending, [], false, s.expectTimeout, s.expectLazy⟩)) ∧
    ((checkOp check s).1 = .error .eof ↔
      (s.closed = true ∧ check (s.retention ++ s.pending) s.closed = [])) := by
  obtain ⟨ret, pend, cl, eto, elzy⟩ := s
  refine ⟨?_, ?_, ?_⟩ <;>
    cases hc : check (ret ++ pend) cl <;> cases cl <;>
      simp_all [checkOp, readAvailable]

/-- Witness for C4 at a concrete session: a needle that matches nothing on a
closed stream makes `check` return `Eof`. -/
theorem check_single_pass_witness :
    (checkOp (fun _ _ => []) ⟨[7], [8], true, some 5000, false⟩).1 = .error .eof :=
  (check_single_pass (fun _ _ => []) ⟨[7], [8], true, some 5000, false⟩).2.2.mpr
    ⟨rfl, rfl⟩

/-- C5: `Session::is_matched` is read-only with respect to retention: the
consume cursor does not advance (the final retention holds every available
byte, only extended by the newly read ones), it returns `true` exactly when
the needle reports at least one match against the available bytes, and it
returns `Eof` exactly when EOF was reached with no match. -/
theorem isMatched_readonly (check : NeedleFn) (s : SessionSt) :
    ((isMatched check s).2 =
      ⟨s.retention ++ s.pending, [], s.closed, s.expectTimeout, s.expectLazy⟩) ∧
    ((isMatched check s).1 = .ok true ↔
      check (s.retention ++ s.pending) s.closed ≠ []) ∧
    ((isMatched check s).1 = .error .eof ↔
      (s.closed = true ∧ check (s.retention ++ s.pending) s.closed = [])) := by
  obtain ⟨ret, pend, cl, eto, elzy⟩ := s
  refine ⟨?_, ?_, ?_⟩ <;>
    cases hc : check (ret ++ pend) cl <;> cases cl <;>
      simp_all [isMatched, readAvailable]

/-- Witness for C5 at a concrete session: a digit is pending, the digit
needle reports a match, and retention keeps every available byte. -/
theorem isMatched_readonly_witness :
    (isMatched digitCheck ⟨[65], [49], false, some 5000, false⟩).1 = .ok true ∧
    (isMatched digitCheck ⟨[65], [49], false, some 5000, false⟩).2 =
      ⟨[65, 49], [], false, some 5000, false⟩ :=
  ⟨(isMatched_readonly digitCheck ⟨[65], [49], false, some 5000, false⟩).2.1.mpr
      (by decide),
    (isMatched_readonly digitCheck ⟨[65], [49], false, some 5000, false⟩).1⟩

/-! The layered reader stack behind `TryStream` (std `BufReader` over
`BufferedReader` over the raw non-blocking stream), as needed by
`TryStream::try_read` and `TryStream::is_empty`. -/

/-- State of the full reader stack.  `bufInner` is the std `BufReader`'s
internal 8192-byte buffer, `keep` is `BufferedReader.buffer`, `pending` and
`closed` describe the raw stream, and `broken` makes raw reads fail with a
non-WouldBlock I/O error. -/
structure CState where
  bufInner : List Byte
  keep : List Byte
  pending : List Byte
  closed : Bool
  broken : Bool
deriving DecidableEq, Repr

/-- I/O errors that reach `is_empty`. -/
inductive IOErr where
  | wouldBlock
  | other
deriving DecidableEq, Repr

/-- `BufferedReader::read` with a caller buffer of length `n`: serves bytes
from `keep` first (`buf.write` copies at most `n` and the written prefix is
drained); otherwise reads the raw non-blocking stream, which yields data,
0 on EOF, or a WouldBlock error. -/
def bufferedReaderRead (n : Nat) (s : CState) : Except IOErr (List Byte × CState) :=
  if s.keep.isEmpty then
    if s.broken then .error .other
    else if s.pending.isEmpty then
      if s.closed then .ok ([], s) else .error .wouldBlock
    else .ok (s.pending.take n, { s with pending := s.pending.drop n })
  else .ok (s.keep.take n, { s with keep := s.keep.drop n })

/-- std `BufReader::read` with a caller buffer of length `n`: bypasses its
internal buffer only when that buffer is exhausted and the caller asks for
at least its 8192-byte capacity; otherwise fills the internal buffer via
`fill_buf` and copies out at most `n` bytes. -/
def bufReaderRead (n : Nat) (s : CState) : Except IOErr (Nat × CState) :=
  if s.bufInner.isEmpty && decide (8192 ≤ n) then
    match bufferedReaderRead n s with
    | .ok (bs, s') => .ok (bs.length, s')
    | .error e => .error e
  else
    match
      (if s.bufInner.isEmpty then
        match bufferedReaderRead 8192 s with
        | .ok (bs, s') => .ok { s' with bufInner := bs }
        | .error e => .error e
      else (.ok s : Except IOErr CState)) with
    | .ok s' =>
      let k := min n s'.bufInner.length
      .ok (k, { s' with bufInner := s'.bufInner.drop k })
    | .error e => .error e

/-- `TryStream::is_empty`: a non-blocking `try_read` into a zero-length
buffer; `Ok(0)` and WouldBlock report empty, `Ok(n > 0)` would report
non-empty, other errors propagate. -/
def isEmptyOp (s : CState) : Except IOErr (Bool × CState) :=
  match bufReaderRead 0 s with
  | .ok (0, s') => .ok (true, s')
  | .ok (_ + 1, s') => .ok (false, s')
  | .error .wouldBlock => .ok (true, s)
  | .error e => .error e

/-- C10: `is_empty` probes the stream with a zero-length buffer, so the read
always reports 0 bytes copied: for every reader state — in particular when
the child has produced pending unread bytes — the operation returns
`Ok(true)` or propagates a real I/O error; the `Ok(false)` branch is
unreachable and the stream is never reported as non-empty. -/
theorem isEmpty_never_reports_nonempty (s : CState) :
    match isEmptyOp s with
    | .ok (b, _) => b = true
    | .error e => e = .other := by
  obtain ⟨bi, k, p, c, br⟩ := s
  cases bi <;> cases k <;> cases p <;> cases c <;> cases br <;>
    simp [isEmptyOp, bufReaderRead, bufferedReaderRead]

/-! Helper lemmas about `rightMostIndex` and the expect loops. -/

theorem foldl_max_le (n : Nat) :
    ∀ (ms : List (Nat × Nat)) (acc : Nat), (∀ m ∈ ms, m.2 ≤ n) → acc ≤ n →
      ms.foldl (fun a m => max a m.2) acc ≤ n := by
  intro ms
  induction ms with
  | nil => intro acc _ ha; simpa using ha
  | cons x xs ih =>
    intro acc h ha
    simp only [List.foldl_cons]
    exact ih _ (fun m hm => h m (List.mem_cons_of_mem _ hm))
      (max_le ha (h x (List.mem_cons_self _ _)))

theorem rightMostIndex_le (ms : List (Nat × Nat)) (n : Nat)
    (h : ∀ m ∈ ms, m.2 ≤ n) : Captures.rightMostIndex ms ≤ n :=
  foldl_max_le n ms 0 h (Nat.zero_le n)

/-- Well-formedness of a needle: every reported range ends inside the
buffer (the spec's match-ranges are contiguous spans within the buffer). -/
def WFNeedle (check : NeedleFn) : Prop :=
  ∀ d e m, m ∈ check d e → m.2 ≤ d.length

theorem expectGready_drain (check : NeedleFn) (desc : String) (clock : Nat → Nat) :
    ∀ fuel iter s r s', expectGready check desc clock fuel iter s = some (r, s') →
      (∀ caps, r = .ok caps → caps.found ≠ [] ∧
        s'.retention ++ s'.pending =
          (s.retention ++ s.pending).drop (Captures.rightMostIndex caps.found)) ∧
      (∀ e, r = .error e → s'.retention ++ s'.pending = s.retention ++ s.pending) := by
  intro fuel
  induction fuel with
  | zero => intro iter s r s' h; simp [expectGready] at h
  | succ f ih =>
    intro iter s r s' h
    simp only [expectGready, readAvailable, consumeAvailable] at h
    by_cases hf : (check (s.retention ++ s.pending) s.closed).isEmpty
    · simp only [hf, if_true] at h
      by_cases hcl : s.closed
      · simp only [hcl, if_true] at h
        obtain ⟨hr, hs⟩ := Prod.mk.injEq .. ▸ (Option.some.injEq .. ▸ h)
        subst hr; subst hs
        exact ⟨fun caps hc => by simp at hc, fun e _ => by simp⟩
      · simp only [hcl, if_false] at h
        cases ht : s.expectTimeout with
        | some t =>
          simp only [ht] at h
          by_cases hck : clock iter > t
          · simp only [if_pos hck] at h
            obtain ⟨hr, hs⟩ := Prod.mk.injEq .. ▸ (Option.some.injEq .. ▸ h)
            subst hr; subst hs
            exact ⟨fun caps hc => by simp at hc, fun e _ => by simp⟩
          · simp only [if_neg hck] at h
            have := ih (iter + 1) _ r s' h
            simpa using this
        | none =>
          simp only [ht] at h
          have := ih (iter + 1) _ r s' h
          simpa using this
    · simp only [hf, if_false] at h
      obtain ⟨hr, hs⟩ := Prod.mk.injEq .. ▸ (Option.some.injEq .. ▸ h)
      subst hr; subst hs
      constructor
      · intro caps hc
        cases hc
        exact ⟨by simpa using hf, by simp⟩
      · intro e he; cases he

theorem expectLazyRun_drain (check : NeedleFn) (desc : String) (clock : Nat → Nat)
    (hwf : WFNeedle check) :
    ∀ fuel iter cdl eofF (s : SessionSt) r s', cdl ≤ s.retention.length →
      expectLazyRun check desc clock fuel iter cdl eofF s = some (r, s') →
      (∀ caps, r = .ok caps → caps.found ≠ [] ∧
        s'.retention ++ s'.pending =
          (s.retention ++ s.pending).drop (Captures.rightMostIndex caps.found)) ∧
      (∀ e, r = .error e → s'.retention ++ s'.pending = s.retention ++ s.pending) := by
  intro fuel
  induction fuel with
  | zero => intro iter cdl eofF s r s' hcdl h; simp [expectLazyRun] at h
  | succ f ih =>
    intro iter cdl eofF s r s' hcdl h
    have cont : ∀ (eofF1 : Bool) (s1 : SessionSt),
        s1.retention ++ s1.pending = s.retention ++ s.pending →
        s1.expectTimeout = s.expectTimeout →
        cdl ≤ s1.retention.length →
        ((if (check (s1.retention.take
              (if cdl < s1.retention.length then cdl + 1 else cdl)) eofF1).isEmpty then
            if eofF1 then some (.error .eof, s1)
            else
              match s.expectTimeout with
              | some t =>
                if clock iter > t then some (.error (.expectTimeout t desc), s1)
                else expectLazyRun check desc clock f (iter + 1)
                  (if cdl < s1.retention.length then cdl + 1 else cdl) eofF1 s1
              | none => expectLazyRun check desc clock f (iter + 1)
                  (if cdl < s1.retention.length then cdl + 1 else cdl) eofF1 s1
          else
            some (.ok ⟨(s1.retention.take
                (if cdl < s1.retention.length then cdl + 1 else cdl)).take
                  (Captures.rightMostIndex (check (s1.retention.take
                    (if cdl < s1.retention.length then cdl + 1 else cdl)) eofF1)),
                check (s1.retention.take
                  (if cdl < s1.retention.length then cdl + 1 else cdl)) eofF1⟩,
              consumeAvailable (Captures.rightMostIndex (check (s1.retention.take
                (if cdl < s1.retention.length then cdl + 1 else cdl)) eofF1)) s1)) =
          some (r, s')) →
        (∀ caps, r = .ok caps → caps.found ≠ [] ∧
          s'.retention ++ s'.pending =
            (s.retention ++ s.pending).drop (Captures.rightMostIndex caps.found)) ∧
        (∀ e, r = .error e → s'.retention ++ s'.pending = s.retention ++ s.pending) := by
      intro eofF1 s1 hstream hto hcdl1 hbody
      set cdl1 := if cdl < s1.retention.length then cdl + 1 else cdl with hc1
      have hcdl1' : cdl1 ≤ s1.retention.length := by
        rw [hc1]; split <;> omega
      by_cases hfound : (check (s1.retention.take cdl1) eofF1).isEmpty
      · simp only [hfound, if_true] at hbody
        cases eofF1 with
        | true =>
          simp only [if_true] at hbody
          obtain ⟨hr, hs⟩ := Prod.mk.injEq .. ▸ (Option.some.injEq .. ▸ hbody)
          subst hr; subst hs
          exact ⟨fun caps hc => by simp at hc, fun e _ => hstream⟩
        | false =>
          simp only [Bool.false_eq_true, if_false] at hbody
          cases ht : s.expectTimeout with
          | some t =>
            simp only [ht] at hbody
            by_cases hck : clock iter > t
            · simp only [if_pos hck] at hbody
              obtain ⟨hr, hs⟩ := Prod.mk.injEq .. ▸ (Option.some.injEq .. ▸ hbody)
              subst hr; subst hs
              exact ⟨fun caps hc => by simp at hc, fun e _ => hstream⟩
            · simp only [if_neg hck] at hbody
              have := ih (iter + 1) cdl1 false s1 r s' hcdl1' hbody
              rw [hstream] at this
              exact this
          | none =>
            simp only [ht] at hbody
            have := ih (iter + 1) cdl1 false s1 r s' hcdl1' hbody
            rw [hstream] at this
            exact this
      · simp only [hfound, if_false] at hbody
        obtain ⟨hr, hs⟩ := Prod.mk.injEq .. ▸ (Option.some.injEq .. ▸ hbody)
        subst hr; subst hs
        constructor
        · intro caps hc
          cases hc
          refine ⟨by simpa using hfound, ?_⟩
          have hle : Captures.rightMostIndex (check (s1.retention.take cdl1) eofF1) ≤
              s1.retention.length := by
            refine le_trans (rightMostIndex_le _ _ (fun m hm =>
              hwf (s1.retention.take cdl1) eofF1 m hm)) ?_
            simp [Nat.min_le_right]
          simp only [consumeAvailable]
          rw [← hstream, List.drop_append_of_le_length hle]
        · intro e he; cases he
    simp only [expectLazyRun] at h
    by_cases hc : cdl = s.retention.length
    · rw [if_pos hc, if_pos hc] at h
      rcases hp : s.pending with _ | ⟨b, rest⟩
      · by_cases hcl : s.closed = true
        · have hro : readAvailableOnce s = (some 0, s) := by
            simp [readAvailableOnce, hp, hcl]
          rw [hro] at h
          simpa [hp] using cont true s rfl rfl hcdl h
        · have hro : readAvailableOnce s = (none, s) := by
            simp [readAvailableOnce, hp, hcl]
          rw [hro] at h
          simpa [hp] using cont false s rfl rfl hcdl h
      · have hro : readAvailableOnce s =
            (some 1, { s with retention := s.retention ++ [b], pending := rest }) := by
          simp [readAvailableOnce, hp]
        rw [hro] at h
        simpa [hp] using cont false { s with retention := s.retention ++ [b], pending := rest }
          (by simp [hp]) rfl (by simp; omega) h
    · rw [if_neg hc, if_neg hc] at h
      exact cont eofF s rfl rfl hcdl h

theorem digitRunsGo_le :
    ∀ (l : List Byte) (i : Nat) (cur : Option Nat) (m : Nat × Nat),
      m ∈ digitRunsGo i cur l → m.2 ≤ i + l.length := by
  intro l
  induction l with
  | nil =>
    intro i cur m hm
    cases cur with
    | none => simp [digitRunsGo] at hm
    | some st =>
      simp only [digitRunsGo, List.mem_singleton] at hm
      subst hm; simp
  | cons b rest ih =>
    intro i cur m hm
    simp only [digitRunsGo] at hm
    by_cases hd : isDigitByte b
    · simp only [hd, if_true] at hm
      have := ih (i + 1) (some (cur.getD i)) m hm
      simp only [List.length_cons]
      omega
    · simp only [hd, if_false] at hm
      cases cur with
      | some st =>
        rcases List.mem_cons.mp hm with hm | hm
        · subst hm; simp only [List.length_cons]; omega
        · have := ih (i + 1) none m hm
          simp only [List.length_cons]; omega
      | none =>
        have := ih (i + 1) none m hm
        simp only [List.length_cons]; omega

theorem digitCheck_wf : WFNeedle digitCheck := by
  intro d e m hm
  simpa using digitRunsGo_le d 0 none m hm

/-- C2: every `expect` (eager or lazy) or `check` call that succeeds with a
non-empty match set drains exactly `right_most_index(matches)` bytes from
the front of the retention buffer: the bytes a later operation can observe
are exactly the original available bytes strictly after that index, in
unchanged FIFO order.  On failure (`Eof`, `ExpectTimeout`) and on an empty
`check` no byte is discarded. -/
theorem expect_check_drain_exact (check : NeedleFn) (desc : String)
    (clock : Nat → Nat) (fuel : Nat) (s s' : SessionSt) (r : Except SErr Captures)
    (hwf : WFNeedle check) :
    (expect check desc clock fuel s = some (r, s') →
      (∀ caps, r = .ok caps → caps.found ≠ [] ∧
        s'.retention ++ s'.pending =
          (s.retention ++ s.pending).drop (Captures.rightMostIndex caps.found)) ∧
      (∀ e, r = .error e → s'.retention ++ s'.pending = s.retention ++ s.pending)) ∧
    (checkOp check s = (r, s') →
      (∀ caps, r = .ok caps → caps.found ≠ [] →
        s'.retention ++ s'.pending =
          (s.retention ++ s.pending).drop (Captures.rightMostIndex caps.found)) ∧
      (∀ caps, r = .ok caps → caps.found = [] →
        s'.retention ++ s'.pending = s.retention ++ s.pending) ∧
      (∀ e, r = .error e → s'.retention ++ s'.pending = s.retention ++ s.pending)) := by
  constructor
  · intro h
    unfold expect at h
    by_cases hl : s.expectLazy
    · simp only [hl, if_true] at h
      exact expectLazyRun_drain check desc clock hwf fuel 0 0 false s r s'
        (Nat.zero_le _) h
    · simp only [hl, Bool.false_eq_true, if_false] at h
      exact expectGready_drain check desc clock fuel 0 s r s' h
  · intro h
    simp only [checkOp, readAvailable] at h
    by_cases hf : (check (s.retention ++ s.pending) s.closed).isEmpty
    · simp only [hf, if_true] at h
      by_cases hcl : s.closed
      · simp only [hcl, if_true] at h
        obtain ⟨hr, hs⟩ := Prod.mk.injEq .. ▸ h
        subst hr; subst hs
        exact ⟨fun caps hc => by simp at hc, fun caps hc _ => by simp at hc,
          fun e _ => by simp⟩
      · simp only [hcl, Bool.false_eq_true, if_false] at h
        obtain ⟨hr, hs⟩ := Prod.mk.injEq .. ▸ h
        subst hr; subst hs
        exact ⟨fun caps hc hne => by cases hc; simp at hne,
          fun caps hc _ => by simp, fun e hc => by cases hc⟩
    · simp only [hf, if_false] at h
      obtain ⟨hr, hs⟩ := Prod.mk.injEq .. ▸ h
      subst hr; subst hs
      refine ⟨fun caps hc _ => ?_, fun caps hc hemp => ?_, fun e hc => by cases hc⟩
      · cases hc; simp [consumeAvailable]
      · cases hc; simp at hemp; simp_all

/-- Witness for C2 at the concrete eager `"123"` run: the match set `[(0,3)]`
is non-empty and the post-state stream is the drop of the original stream at
the rightmost match end 3. -/
theorem expect_check_drain_exact_witness :
    ([(0, 3)] : List (Nat × Nat)) ≠ [] ∧
    (([] : List Byte) ++ [] =
      (([] : List Byte) ++ [49, 50, 51]).drop (Captures.rightMostIndex [(0, 3)])) :=
  (expect_check_drain_exact digitCheck "Regex(d+)" (fun _ => 0) 1 (st123 false)
      ⟨[], [], false, some 5000, false⟩ (.ok ⟨[49, 50, 51], [(0, 3)]⟩)
      digitCheck_wf).1 rfl |>.1 ⟨[49, 50, 51], [(0, 3)]⟩ rfl

theorem expectGready_timeout_eventually (check : NeedleFn) (desc : String)
    (clock : Nat → Nat) (T : Nat) :
    ∀ k fuel iter (s : SessionSt), k < fuel → s.closed = false →
      check (s.retention ++ s.pending) false = [] →
      s.expectTimeout = some T → clock (iter + k) > T →
      expectGready check desc clock fuel iter s =
        some (.error (.expectTimeout T desc),
          ⟨s.retention ++ s.pending, [], false, some T, s.expectLazy⟩) := by
  intro k
  induction k with
  | zero =>
    intro fuel iter s hfuel hcl hnm ht hck
    cases fuel with
    | zero => omega
    | succ f =>
      obtain ⟨ret, pend, cl, eto, elzy⟩ := s
      simp only at hcl hnm ht
      subst hcl; subst ht
      rw [Nat.add_zero] at hck
      simp only [expectGready, readAvailable, hnm, List.isEmpty_nil, if_true,
        Bool.false_eq_true, if_false]
      rw [if_pos hck]
  | succ k ih =>
    intro fuel iter s hfuel hcl hnm ht hck
    cases fuel with
    | zero => omega
    | succ f =>
      obtain ⟨ret, pend, cl, eto, elzy⟩ := s
      simp only at hcl hnm ht
      subst hcl; subst ht
      simp only [expectGready, readAvailable, hnm, List.isEmpty_nil, if_true,
        Bool.false_eq_true, if_false]
      by_cases hck0 : clock iter > T
      · rw [if_pos hck0]
      · rw [if_neg hck0]
        have harg : clock (iter + 1 + k) > T := by
          have : iter + 1 + k = iter + (k + 1) := by omega
          rw [this]; exact hck
        have := ih f (iter + 1)
          ⟨ret ++ pend, [], false, some T, elzy⟩ (by omega) rfl
          (by simpa using hnm) rfl harg
        simpa using this

/-- C3: a session constructed with timeout `None` defaults its expect
timeout to 5000 ms; for a needle that never matches the produced bytes with
EOF not reached, `expect` returns `ExpectTimeout` — carrying the configured
timeout and the needle description — once the elapsed wall clock exceeds the
timeout; and if EOF is reached with no match, `expect` returns `Eof`. -/
theorem expect_timeout_default_and_eof (check : NeedleFn) (desc : String)
    (clock : Nat → Nat) (s : SessionSt) (T k fuel : Nat)
    (pend0 : List Byte) (cl0 : Bool) :
    (sessionNew pend0 cl0 none).expectTimeout = some 5000 ∧
    (s.expectLazy = false → s.closed = false →
      check (s.retention ++ s.pending) false = [] →
      s.expectTimeout = some T → clock k > T → k < fuel →
      expect check desc clock fuel s =
        some (.error (.expectTimeout T desc),
          ⟨s.retention ++ s.pending, [], false, some T, false⟩)) ∧
    (s.expectLazy = false → s.closed = true →
      check (s.retention ++ s.pending) true = [] → 0 < fuel →
      expect check desc clock fuel s =
        some (.error .eof, ⟨s.retention ++ s.pending, [], true, s.expectTimeout, false⟩)) := by
  refine ⟨rfl, ?_, ?_⟩
  · intro hl hcl hnm ht hck hfuel
    unfold expect
    rw [hl]
    simp only [Bool.false_eq_true, if_false]
    have := expectGready_timeout_eventually check desc clock T k fuel 0 s hfuel hcl hnm ht
      (by simpa using hck)
    rw [this, hl]
  · intro hl hcl hnm hfuel
    cases fuel with
    | zero => omega
    | succ f =>
      obtain ⟨ret, pend, cl, eto, elzy⟩ := s
      simp only at hl hcl hnm
      subst hl; subst hcl
      unfold expect
      simp only [Bool.false_eq_true, if_false]
      simp only [expectGready, readAvailable, hnm, List.isEmpty_nil, if_true]

/-- Witness for C3: a never-matching needle on an open silent stream with a
100 ms timeout and 101 ms elapsed yields `ExpectTimeout(100, desc)`; the same
needle on a closed stream yields `Eof`; and `sessionNew` with `none` defaults
to 5000 ms. -/
theorem expect_timeout_default_and_eof_witness :
    (sessionNew [] false none).expectTimeout = some 5000 ∧
    expect (fun _ _ => []) "needle" (fun _ => 101) 1 ⟨[], [], false, some 100, false⟩ =
      some (.error (.expectTimeout 100 "needle"), ⟨[], [], false, some 100, false⟩) ∧
    expect (fun _ _ => []) "needle" (fun _ => 0) 1 ⟨[5], [], true, some 100, false⟩ =
      some (.error .eof, ⟨[5], [], true, some 100, false⟩) := by
  refine ⟨(expect_timeout_default_and_eof (fun _ _ => []) "needle" (fun _ => 101)
      ⟨[], [], false, some 100, false⟩ 100 0 1 [] false).1, ?_, ?_⟩
  · have := (expect_timeout_default_and_eof (fun _ _ => []) "needle" (fun _ => 101)
      ⟨[], [], false, some 100, false⟩ 100 0 1 [] false).2.1
      rfl rfl rfl rfl (by decide) (by decide)
    simpa using this
  · have := (expect_timeout_default_and_eof (fun _ _ => []) "needle" (fun _ => 0)
      ⟨[5], [], true, some 100, false⟩ 100 0 1 [] false).2.2
      rfl rfl rfl (by decide)
    simpa using this

/-! Include splicing (src/core/src/interpreter.rs `ScriptFile::parse_source`). -/

/-- Instruction skeleton for splice positioning: `plain n` is the n-th
non-include instruction in source order, `inc n` a spliced `Include` node. -/
inductive INode where
  | plain (n : Nat)
  | inc (n : Nat)
deriving DecidableEq, Repr

/-- Rust's `Vec::insert(n, a)`: insert before position `n`, shifting the
suffix right. -/
def insertAt (n : Nat) (a : α) (l : List α) : List α := l.take n ++ a :: l.drop n

/-- The include-splice loop of `ScriptFile::parse_source`
(src/core/src/interpreter.rs, lines 207-217): each recorded include
`(index, id)` is inserted at its raw recorded index when that is below the
current length, else appended.  No compensation for prior insertions is
applied. -/
def parseSourceSplice (incs : List (Nat × Nat)) (base : List INode) : List INode :=
  incs.foldl (fun acc r =>
    if r.1 < acc.length then insertAt r.1 (INode.inc r.2) acc
    else acc ++ [INode.inc r.2]) base

/-- Modelled from the spec: the Script File splicing rule that tracks a
cumulative inserted-so-far counter so sibling includes land at their
originally intended positions (the runner crate's interpreter.rs, which the
CLI in src/src/main.rs and the test parse_include_many exercise, is not
under src/). -/
def spliceWithCounter (incs : List (Nat × Nat)) (base : List INode) : List INode :=
  (incs.foldl (fun p r =>
    (if r.1 + p.2 ≤ p.1.length then insertAt (r.1 + p.2) (INode.inc r.2) p.1
     else p.1 ++ [INode.inc r.2], p.2 + 1)) (base, 0)).1

/-- C6: evaluation at the failing input.  For a file with six non-include
instructions and includes recorded at indices 2 and 5 (the shape of the
repository's include-many fixture), `parse_source` places the second
`Include` at position 5 — before the instruction it should follow — because
it does not compensate for the first insertion; the spec's compensated
splicing rule places it at position 6, in execution order after the fifth
source instruction, as the claim states. -/
theorem include_splice_uncompensated :
    parseSourceSplice [(2, 0), (5, 1)]
        [.plain 0, .plain 1, .plain 2, .plain 3, .plain 4, .plain 5] =
      [.plain 0, .plain 1, .inc 0, .plain 2, .plain 3, .inc 1, .plain 4, .plain 5] ∧
    spliceWithCounter [(2, 0), (5, 1)]
        [.plain 0, .plain 1, .plain 2, .plain 3, .plain 4, .plain 5] =
      [.plain 0, .plain 1, .inc 0, .plain 2, .plain 3, .plain 4, .inc 1, .plain 5] :=
  ⟨rfl, rfl⟩

/-! The typing-cadence delay of `type_text` (src/core/src/interpreter.rs). -/

/-- Rust's saturating cast `drift as u64` applied to the truncation-toward-
zero `d` of the Gaussian sample: negative values saturate to 0, values above
the u64 range saturate to its maximum. -/
def castU64 (d : Int) : Nat := if d < 0 then 0 else min d.toNat (2 ^ 64 - 1)

/-- The per-grapheme delay computation of `type_text`
(src/core/src/interpreter.rs lines 289-298), as a function of the truncated
Gaussian sample `drift`.  When `(drift as u64) < delay`, the signed branch
runs: for negative drift it computes the u64 subtraction
`cinema.delay - drift.unsigned_abs()`, which underflows whenever
`|drift| > delay` — the model returns `none` exactly there (a panic in a
debug build, a wrap-around in release).  Otherwise `delay + |drift|` is
returned.  The i64 saturation bound of the inner cast is elided; the inputs
evaluated below do not reach it. -/
def typeTextDelay (delay : Nat) (drift : Int) : Option Nat :=
  if castU64 drift < delay then
    if drift < 0 then
      if drift.natAbs ≤ delay then some (delay - drift.natAbs) else none
    else some (delay + drift.toNat)
  else some (delay + drift.natAbs)

/-- C7: evaluation at the failing input.  With the default recording delay
of 80 ms, a Gaussian sample of -100 drives the negative-drift branch into
the subtraction `80u64 - 100u64`, which underflows; moderate samples such as
-10 or +200 stay on the claimed non-negative path. -/
theorem type_text_delay_underflow :
    typeTextDelay 80 (-100) = none ∧
    typeTextDelay 80 (-10) = some 70 ∧
    typeTextDelay 80 200 = some 280 :=
  ⟨rfl, rfl, rfl⟩

/-! Environment interpolation (src/runner/src/parser.rs `interpolate`). -/

/-- Character class `[A-Za-z0-9_]` of a `$NAME` token. -/
def isNameChar (c : Char) : Bool := c.isAlpha || c.isDigit || c == '_'

theorem length_dropWhile_le (p : α → Bool) (l : List α) :
    (l.dropWhile p).length ≤ l.length := by
  induction l with
  | nil => simp [List.dropWhile]
  | cons a l ih =>
    by_cases h : p a <;> simp [List.dropWhile_cons, h]
    omega

/-- The `EnvVars` lexer pass driving `interpolate`: a `$` followed by at
least one name character is a `Var` token (longest match, replaced by the
environment value when bound, kept verbatim otherwise); any other character
except a newline is `Text` and copied; a newline matches no lexer rule, so
the pass fails.  Every token consumes at least one character, so running the
scan with the input length as fuel is exact; the fuel only makes the
recursion structural. -/
def interpScan (env : String → Option String) : Nat → List Char → Option (List Char)
  | _, [] => some []
  | 0, _ :: _ => none
  | fuel + 1, c :: rest =>
    if c = '$' then
      if (rest.takeWhile isNameChar).isEmpty then
        (interpScan env fuel rest).map (fun t => '$' :: t)
      else
        (interpScan env fuel (rest.dropWhile isNameChar)).map (fun t =>
          (match env (String.mk (rest.takeWhile isNameChar)) with
            | some v => v.data
            | none => '$' :: rest.takeWhile isNameChar) ++ t)
    else if c = '\n' then none
    else (interpScan env fuel rest).map (fun t => c :: t)

/-- `ScriptParser::interpolate` (src/runner/src/parser.rs lines 261-286):
text without a `$` is returned unchanged; otherwise the `EnvVars` lexer pass
substitutes every bound `$NAME`. -/
def interpolate (env : String → Option String) (s : String) : Option String :=
  if s.data.contains '$' then (interpScan env s.data.length s.data).map String.mk
  else some s

/-! The runner interpreter's instruction dispatch, as far as the Comment
semantics needs it.  The runner crate's interpreter.rs is not under src/
(src/runner/src/lib.rs declares the module and src/src/main.rs passes the
`--print-comments` flag into its `InterpreterOptions`); the dispatch is
modelled from the spec. -/

/-- Instructions relevant to the Comment semantics. -/
inductive RInstr where
  | sendLine (text : String)
  | send (text : String)
  | comment (text : String)
  | flush
deriving DecidableEq, Repr

/-- Visible effect of one instruction on the session. -/
inductive Action where
  | typed (s : String)
  | line (s : String)
  | raw (s : String)
  | flushed
  | failedInterpolation
deriving DecidableEq, Repr

/-- The interpreter options consulted by the dispatch: `print_comments`,
recording mode, and the ambient environment used by interpolation. -/
structure RunnerOptions where
  printComments : Bool
  cinema : Bool
  env : String → Option String

/-- Modelled from the spec: executing a `SendLine` interpolates the text,
then types it grapheme-by-grapheme in recording mode or writes the line
plus newline otherwise. -/
def sendLineActions (o : RunnerOptions) (text : String) : List Action :=
  match interpolate o.env text with
  | some t => if o.cinema then [.typed t] else [.line t]
  | none => [.failedInterpolation]

/-- Modelled from the spec: the runner interpreter's `exec` dispatch.
A `Comment` is skipped unless `print_comments` is set, in which case the
comment text is executed as a `SendLine`. -/
def execInstr (o : RunnerOptions) : RInstr → List Action
  | .sendLine text => sendLineActions o text
  | .send text => [.raw text]
  | .comment text =>
    if o.printComments then sendLineActions o text else []
  | .flush => [.flushed]

/-- C8: for every Comment instruction, execution is a no-op unless the
`print_comments` option is enabled, in which case the comment text is
executed exactly as the corresponding SendLine (interpolated, then written,
or typed in recording mode). -/
theorem comment_noop_unless_print_comments (o : RunnerOptions) (text : String) :
    (o.printComments = false → execInstr o (.comment text) = []) ∧
    (o.printComments = true →
      execInstr o (.comment text) = execInstr o (.sendLine text)) := by
  constructor <;> intro h <;> simp [execInstr, h]

/-- Witness for C8 at concrete options: with `print_comments` off the
comment produces no action; with it on it produces the SendLine actions. -/
theorem comment_noop_unless_print_comments_witness :
    execInstr ⟨false, false, fun _ => none⟩ (.comment "hi") = [] ∧
    execInstr ⟨true, false, fun _ => none⟩ (.comment "hi") =
      execInstr ⟨true, false, fun _ => none⟩ (.sendLine "hi") :=
  ⟨(comment_noop_unless_print_comments ⟨false, false, fun _ => none⟩ "hi").1 rfl,
    (comment_noop_unless_print_comments ⟨true, false, fun _ => none⟩ "hi").2 rfl⟩

/-- Head-of-list name-character test (false on the empty list). -/
def headIsName : List Char → Bool
  | [] => false
  | c :: _ => isNameChar c

/-- A character list contains no `$NAME` form: no `$` immediately followed
by a name character. -/
def noVarForm : List Char → Bool
  | [] => true
  | c :: rest => (!(c == '$') || !headIsName rest) && noVarForm rest

/-- Concrete environment falsifying the idempotence claim: `A` is bound to
`"B"` and `B` to `"z"`; neither value contains a `$NAME` form (neither even
contains a `$`). -/
def env0 : String → Option String := fun n =>
  if n = "A" then some "B" else if n = "B" then some "z" else none

/-- C9 counterexample: with the environment `A ↦ "B"`, `B ↦ "z"` — whose
values contain no `$NAME` form, satisfying the claim's precondition — the
input `"$$A"` interpolates to `"$B"` (the lone `$` is literal text and `$A`
is substituted), but a second interpolation pass sees the freshly created
`$B` as a variable and yields `"z"`: interpolate is not idempotent. -/
theorem interpolate_idempotence_counterexample :
    noVarForm "B".data = true ∧ noVarForm "z".data = true ∧
    interpolate env0 "$$A" = some "$B" ∧
    interpolate env0 "$B" = some "z" ∧
    (interpolate env0 "$$A").bind (interpolate env0) ≠ interpolate env0 "$$A" := by
  refine ⟨by decide, by decide, by decide, by decide, by decide⟩

/-! Auxiliary lemmas for the amended interpolation idempotence. -/

/-- Amended precondition on the environment: every bound value contains no
`$NAME` form, contains no newline, and does not begin with a name
character. -/
def EnvOk (env : String → Option String) : Prop :=
  ∀ n v, env n = some v → noVarForm v.data = true ∧
    (∀ c ∈ v.data, c ≠ '\n') ∧ headIsName v.data = false

theorem interpScan_fuel (env : String → Option String) :
    ∀ f g l, l.length ≤ f → l.length ≤ g →
      interpScan env f l = interpScan env g l := by
  intro f
  induction f with
  | zero =>
    intro g l hf _
    cases l with
    | nil => cases g <;> rfl
    | cons c rest => simp at hf
  | succ f ih =>
    intro g l hf hg
    cases l with
    | nil => cases g <;> rfl
    | cons c rest =>
      cases g with
      | zero => simp at hg
      | succ g =>
        simp only [List.length_cons] at hf hg
        simp only [interpScan]
        by_cases hc : c = '$'
        · simp only [if_pos hc]
          by_cases hemp : (rest.takeWhile isNameChar).isEmpty
          · simp only [if_pos hemp]
            rw [ih g rest (by omega) (by omega)]
          · simp only [if_neg hemp]
            rw [ih g (rest.dropWhile isNameChar)
              (le_trans (length_dropWhile_le _ _) (by omega))
              (le_trans (length_dropWhile_le _ _) (by omega))]
        · simp only [if_neg hc]
          by_cases hn : c = '\n'
          · simp only [if_pos hn]
          · simp only [if_neg hn]
            rw [ih g rest (by omega) (by omega)]

theorem headIsName_dropWhile (l : List Char) :
    headIsName (l.dropWhile isNameChar) = false := by
  induction l with
  | nil => rfl
  | cons a l ih =>
    by_cases h : isNameChar a
    · simpa [List.dropWhile_cons, h] using ih
    · simp [List.dropWhile_cons, h, headIsName]

theorem takeWhile_nil_of_head (l : List Char) (h : headIsName l = false) :
    l.takeWhile isNameChar = [] := by
  cases l with
  | nil => rfl
  | cons a l =>
    simp only [headIsName] at h
    simp [List.takeWhile_cons, h]

theorem head_of_takeWhile_empty (l : List Char)
    (h : (l.takeWhile isNameChar).isEmpty = true) : headIsName l = false := by
  cases l with
  | nil => rfl
  | cons a l =>
    by_cases ha : isNameChar a
    · simp [List.takeWhile_cons, ha] at h
    · simp [headIsName, ha]

theorem dropWhile_self_of_head (l : List Char) (h : headIsName l = false) :
    l.dropWhile isNameChar = l := by
  cases l with
  | nil => rfl
  | cons a l =>
    simp only [headIsName] at h
    simp [List.dropWhile_cons, h]

theorem takeWhile_append_all (n m : List Char)
    (hn : ∀ x ∈ n, isNameChar x = true) :
    (n ++ m).takeWhile isNameChar = n ++ m.takeWhile isNameChar := by
  induction n with
  | nil => simp
  | cons a n ih =>
    have ha := hn a (List.mem_cons_self _ _)
    simp [List.takeWhile_cons, ha,
      ih (fun x hx => hn x (List.mem_cons_of_mem _ hx))]

theorem dropWhile_append_all (n m : List Char)
    (hn : ∀ x ∈ n, isNameChar x = true) :
    (n ++ m).dropWhile isNameChar = m.dropWhile isNameChar := by
  induction n with
  | nil => simp
  | cons a n ih =>
    have ha := hn a (List.mem_cons_self _ _)
    simp [List.dropWhile_cons, ha,
      ih (fun x hx => hn x (List.mem_cons_of_mem _ hx))]

theorem headIsName_append (xs q : List Char) (hx : headIsName xs = false)
    (hq : headIsName q = false) : headIsName (xs ++ q) = false := by
  cases xs with
  | nil => simpa using hq
  | cons a l => simpa [headIsName] using hx

theorem interpScan_head_not_name (env : String → Option String)
    (henv : EnvOk env) :
    ∀ f l t, l.length ≤ f → headIsName l = false →
      interpScan env f l = some t → headIsName t = false := by
  intro f
  induction f with
  | zero =>
    intro l t hlen _ h
    cases l with
    | nil => cases h; rfl
    | cons c rest => simp at hlen
  | succ f ih =>
    intro l t hlen hhead h
    cases l with
    | nil => cases h; rfl
    | cons c rest =>
      simp only [List.length_cons] at hlen
      simp only [interpScan] at h
      by_cases hc : c = '$'
      · rw [if_pos hc] at h
        by_cases hemp : (rest.takeWhile isNameChar).isEmpty
        · rw [if_pos hemp] at h
          obtain ⟨t', _, rfl⟩ := Option.map_eq_some'.mp h
          rfl
        · rw [if_neg hemp] at h
          cases hv : env (String.mk (rest.takeWhile isNameChar)) with
          | none =>
            simp only [hv] at h
            obtain ⟨t', ht', heq⟩ := Option.map_eq_some'.mp h
            subst heq
            rfl
          | some v =>
            simp only [hv] at h
            obtain ⟨t', ht', heq⟩ := Option.map_eq_some'.mp h
            rcases hvd : v.data with _ | ⟨a, as⟩ <;> rw [hvd] at heq
            · simp only [List.nil_append] at heq
              subst heq
              exact ih _ _ (le_trans (length_dropWhile_le _ _) (by omega))
                (headIsName_dropWhile rest) ht'
            · have hvh := (henv _ v hv).2.2
              rw [hvd] at hvh
              subst heq
              simpa [headIsName] using hvh
      · rw [if_neg hc] at h
        by_cases hn : c = '\n'
        · rw [if_pos hn] at h; cases h
        · rw [if_neg hn] at h
          obtain ⟨t', _, rfl⟩ := Option.map_eq_some'.mp h
          simpa [headIsName] using hhead

theorem interpScan_append_safe (env : String → Option String) :
    ∀ (p q : List Char) (f : Nat), (∀ c ∈ p, c ≠ '\n') → noVarForm p = true →
      (p ++ q).length ≤ f → headIsName q = false →
      interpScan env f (p ++ q) =
        (interpScan env q.length q).map (fun t => p ++ t) := by
  intro p
  induction p with
  | nil =>
    intro q f _ _ hf _
    rw [List.nil_append] at hf ⊢
    rw [interpScan_fuel env f q.length q hf le_rfl]
    cases interpScan env q.length q <;> simp
  | cons a p ih =>
    intro q f hnl hnv hf hq
    have hnl' : ∀ c ∈ p, c ≠ '\n' := fun c hc => hnl c (List.mem_cons_of_mem _ hc)
    have hnv' : noVarForm p = true := by
      simp only [noVarForm, Bool.and_eq_true] at hnv
      exact hnv.2
    cases f with
    | zero => simp at hf
    | succ f =>
      simp only [List.cons_append, List.length_cons] at hf ⊢
      simp only [interpScan]
      by_cases ha : a = '$'
      · subst ha
        have hhead : headIsName (p ++ q) = false := by
          simp only [noVarForm, Bool.and_eq_true, Bool.or_eq_true] at hnv
          rcases hnv.1 with h | h
          · simp at h
          · have hp : headIsName p = false := by
              cases hb : headIsName p
              · rfl
              · rw [hb] at h; simp at h
            exact headIsName_append p q hp hq
        rw [if_pos rfl, if_pos (by simp [takeWhile_nil_of_head _ hhead])]
        rw [ih q f hnl' hnv' (by simpa using hf) hq]
        cases interpScan env q.length q <;> simp
      · have hnla : a ≠ '\n' := hnl a (List.mem_cons_self _ _)
        rw [if_neg ha, if_neg hnla]
        rw [ih q f hnl' hnv' (by simpa using hf) hq]
        cases interpScan env q.length q <;> simp

theorem interpScan_idem (env : String → Option String) (henv : EnvOk env) :
    ∀ f l t, l.length ≤ f → interpScan env f l = some t →
      interpScan env t.length t = some t := by
  intro f
  induction f with
  | zero =>
    intro l t hlen h
    cases l with
    | nil => cases h; rfl
    | cons c rest => simp at hlen
  | succ f ih =>
    intro l t hlen h
    cases l with
    | nil => cases h; rfl
    | cons c rest =>
      simp only [List.length_cons] at hlen
      have hrest : rest.length ≤ f := by omega
      simp only [interpScan] at h
      by_cases hc : c = '$'
      · subst hc
        rw [if_pos rfl] at h
        by_cases hemp : (rest.takeWhile isNameChar).isEmpty
        · rw [if_pos hemp] at h
          obtain ⟨t', ht', rfl⟩ := Option.map_eq_some'.mp h
          have hh' : headIsName t' = false :=
            interpScan_head_not_name env henv f rest t' hrest
              (head_of_takeWhile_empty rest hemp) ht'
          simp only [List.length_cons, interpScan, if_true]
          rw [if_pos (by simp [takeWhile_nil_of_head _ hh'])]
          rw [ih rest t' hrest ht']
          rfl
        · rw [if_neg hemp] at h
          have hnm : ∀ x ∈ rest.takeWhile isNameChar, isNameChar x = true :=
            fun x hx => List.mem_takeWhile_imp hx
          have htail_len : (rest.dropWhile isNameChar).length ≤ f :=
            le_trans (length_dropWhile_le _ _) hrest
          have htail_head : headIsName (rest.dropWhile isNameChar) = false :=
            headIsName_dropWhile rest
          cases hv : env (String.mk (rest.takeWhile isNameChar)) with
          | none =>
            simp only [hv] at h
            obtain ⟨t', ht', heq⟩ := Option.map_eq_some'.mp h
            have hh' : headIsName t' = false :=
              interpScan_head_not_name env henv f _ t' htail_len htail_head ht'
            have htw : (rest.takeWhile isNameChar ++ t').takeWhile isNameChar
                = rest.takeWhile isNameChar := by
              rw [takeWhile_append_all _ _ hnm, takeWhile_nil_of_head _ hh',
                List.append_nil]
            have hdw : (rest.takeWhile isNameChar ++ t').dropWhile isNameChar
                = t' := by
              rw [dropWhile_append_all _ _ hnm, dropWhile_self_of_head _ hh']
            subst heq
            simp only [List.cons_append, List.length_cons, interpScan, if_true,
              List.append_eq]
            rw [htw, hdw, if_neg hemp]
            simp only [hv]
            rw [interpScan_fuel env (rest.takeWhile isNameChar ++ t').length
              t'.length t' (by simp) le_rfl]
            rw [ih _ t' htail_len ht']
            simp
          | some v =>
            simp only [hv] at h
            obtain ⟨t', ht', heq⟩ := Option.map_eq_some'.mp h
            have hh' : headIsName t' = false :=
              interpScan_head_not_name env henv f _ t' htail_len htail_head ht'
            have hvOk := henv _ v hv
            subst heq
            rw [interpScan_append_safe env v.data t' _ hvOk.2.1 hvOk.1 le_rfl hh']
            rw [ih _ t' htail_len ht']
            rfl
      · rw [if_neg hc] at h
        by_cases hn : c = '\n'
        · rw [if_pos hn] at h; cases h
        · rw [if_neg hn] at h
          obtain ⟨t', ht', rfl⟩ := Option.map_eq_some'.mp h
          simp only [List.length_cons, interpScan]
          rw [if_neg hc, if_neg hn, ih rest t' hrest ht']
          rfl

/-- C9 (amended): `interpolate` returns any string without a `$` unchanged;
and it is idempotent for every input string provided every environment value
contains no `$NAME` form, contains no newline, and does not begin with a
`[A-Za-z0-9_]` character.  (The original precondition — values free of
`$NAME` forms — is not sufficient: see the counterexample, where a literal
`$` in the input fuses with a substituted value into a fresh `$NAME`.) -/
theorem interpolate_unchanged_and_idempotent (env : String → Option String)
    (henv : EnvOk env) :
    (∀ s : String, s.data.contains '$' = false → interpolate env s = some s) ∧
    (∀ s t : String, interpolate env s = some t → interpolate env t = some t) := by
  constructor
  · intro s h
    rw [interpolate, if_neg (by rw [h]; decide)]
  · intro s t h
    by_cases hs : s.data.contains '$'
    · simp only [interpolate, hs, if_true] at h
      obtain ⟨tl, htl, rfl⟩ := Option.map_eq_some'.mp h
      have hidem := interpScan_idem env henv s.data.length s.data tl le_rfl htl
      simp only [interpolate]
      by_cases hc : (String.mk tl).data.contains '$'
      · simp only [hc, if_true]
        rw [hidem]
        rfl
      · rw [if_neg hc]
    · rw [interpolate, if_neg hs] at h
      cases h
      rw [interpolate, if_neg hs]

/-- Environment used by the C9 witness: `A ↦ "!x"`; the value has no `$`, no
newline, and starts with a non-name character. -/
def env1 : String → Option String := fun n =>
  if n = "A" then some "!x" else none

/-- Witness for C9 (amended) at concrete inputs: a `$`-free string is
returned unchanged, and re-interpolating the output of `interpolate` on
`"$A"` leaves it fixed. -/
theorem interpolate_unchanged_and_idempotent_witness :
    interpolate env1 "ab" = some "ab" ∧ interpolate env1 "!x" = some "!x" := by
  have henv : EnvOk env1 := by
    intro n v h
    by_cases hn : n = "A"
    · rw [env1, if_pos hn] at h
      cases h
      exact ⟨by decide, by decide, by decide⟩
    · rw [env1, if_neg hn] at h
      cases h
  exact ⟨(interpolate_unchanged_and_idempotent env1 henv).1 "ab" (by decide),
    (interpolate_unchanged_and_idempotent env1 henv).2 "$A" "!x" (by decide)⟩

end Anticipate
